import Mathlib

set_option maxRecDepth 8000

/-- A term of a bivariate polynomial: the Python tuple `(coef, (deg_x, deg_y))`.
Coefficients are modelled as exact rationals (the spec allows floating-point
tolerance; the embedding is exact). Exponents are modelled as integers, since
the Python code never rejects negative exponents. -/
structure Term where
  coef : ℚ
  deg_x : ℤ
  deg_y : ℤ
deriving DecidableEq

/-- Error kinds of the `ValueError`s raised by `Polynome2D`, as the tagged
error codes the spec names. `DegreeExceeded` carries the offending exponent
pair and the configured maximum degree. -/
inductive PolyError where
  | DegreeExceeded (deg_x deg_y degree : ℤ)
  | DegreeMismatch
deriving DecidableEq

/-- The `Polynome2D` object: the stored maximum degree `self.degree` and the
stored term list `self.coefficients`. -/
structure Polynome2D where
  degree : ℤ
  coefficients : List Term
deriving DecidableEq

/-- `Polynome2D._validate_coefficients`: scans the supplied list in order and
raises on the first term with `deg_x > self.degree or deg_y > self.degree`;
on success it returns the list unchanged. -/
def validate_coefficients (degree : ℤ) : List Term → Except PolyError (List Term)
  | [] => .ok []
  | t :: ts =>
    if t.deg_x > degree ∨ t.deg_y > degree then
      .error (.DegreeExceeded t.deg_x t.deg_y degree)
    else
      (validate_coefficients degree ts).map (t :: ·)

/-- `Polynome2D.__init__`: stores the degree and the validated coefficient
list; validation failure aborts construction with no object produced. -/
def Polynome2D.make (coefficients : List Term) (degree : ℤ) :
    Except PolyError Polynome2D :=
  (validate_coefficients degree coefficients).map fun cs =>
    { degree := degree, coefficients := cs }

/-- `Polynome2D.eval`: `result = 0`, then
`result += coef * (x ** deg_x) * (y ** deg_y)` for each stored term. -/
def Polynome2D.eval (p : Polynome2D) (x y : ℚ) : ℚ :=
  p.coefficients.foldl (fun result t => result + t.coef * x ^ t.deg_x * y ^ t.deg_y) 0

/-- The inner merging loop of `Polynome2D.__add__` (also reused verbatim by
`__mul__` on the product terms): scan the accumulated list for the first
stored term with the same exponent pair; if found, add the incoming
coefficient into it in place; otherwise append the incoming term. -/
def addTerm : List Term → Term → List Term
  | [], t => [t]
  | u :: us, t =>
    if u.deg_x = t.deg_x ∧ u.deg_y = t.deg_y then
      { u with coef := u.coef + t.coef } :: us
    else
      u :: addTerm us t

/-- The inner merging loop of `Polynome2D.__sub__`: like `addTerm` but the
matched coefficient is decreased, and a missing term is appended negated. -/
def subTerm : List Term → Term → List Term
  | [], t => [{ t with coef := -t.coef }]
  | u :: us, t =>
    if u.deg_x = t.deg_x ∧ u.deg_y = t.deg_y then
      { u with coef := u.coef - t.coef } :: us
    else
      u :: subTerm us t

/-- `Polynome2D.__add__`: raises `DegreeMismatch` when the degrees differ,
otherwise folds the other polynomial's terms into a copy of `self`'s list and
passes the result through the constructor (which re-validates). -/
def Polynome2D.add (self other : Polynome2D) : Except PolyError Polynome2D :=
  if self.degree ≠ other.degree then
    .error .DegreeMismatch
  else
    Polynome2D.make (other.coefficients.foldl addTerm self.coefficients) self.degree

/-- `Polynome2D.__sub__`: raises `DegreeMismatch` when the degrees differ,
otherwise folds with subtraction semantics. -/
def Polynome2D.sub (self other : Polynome2D) : Except PolyError Polynome2D :=
  if self.degree ≠ other.degree then
    .error .DegreeMismatch
  else
    Polynome2D.make (other.coefficients.foldl subTerm self.coefficients) self.degree

/-- One step of the cross-product loop of `Polynome2D.__mul__` for a fixed
term `t1` of `self` and the current term `t2` of `other`: compute
`new_coef`, `new_deg_x`, `new_deg_y`; drop the product term entirely when
either new exponent exceeds the degree, otherwise merge it in as in
`__add__`. -/
def mulStep (degree : ℤ) (t1 : Term) (acc : List Term) (t2 : Term) : List Term :=
  let new_coef := t1.coef * t2.coef
  let new_deg_x := t1.deg_x + t2.deg_x
  let new_deg_y := t1.deg_y + t2.deg_y
  if new_deg_x ≤ degree ∧ new_deg_y ≤ degree then
    addTerm acc { coef := new_coef, deg_x := new_deg_x, deg_y := new_deg_y }
  else
    acc

/-- `Polynome2D.__mul__`: raises `DegreeMismatch` when the degrees differ,
otherwise accumulates the full cross product through `mulStep` starting from
the empty list, then passes the result through the constructor. -/
def Polynome2D.mul (self other : Polynome2D) : Except PolyError Polynome2D :=
  if self.degree ≠ other.degree then
    .error .DegreeMismatch
  else
    Polynome2D.make
      (self.coefficients.foldl
        (fun acc t1 => other.coefficients.foldl (mulStep self.degree t1) acc) [])
      self.degree

/-- The comparison key of `sorted(self.coefficients, key=lambda x: (x[1][0], x[1][1]))`:
lexicographic order on the exponent pair, as a boolean total preorder. -/
def lexLe (t u : Term) : Bool :=
  decide (t.deg_x < u.deg_x) || (decide (t.deg_x = u.deg_x) && decide (t.deg_y ≤ u.deg_y))

/-- The f-string `f"{coef} * x^{deg_x} * y^{deg_y}"` of `__repr__`. -/
def Term.str (t : Term) : String :=
  let c := t.coef
  let dx := t.deg_x
  let dy := t.deg_y
  s!"{c} * x^{dx} * y^{dy}"

/-- `Polynome2D.__repr__`: sort the terms by exponent pair, keep the rendered
string of every term with nonzero coefficient, join with `" + "`, and render
the empty result as `"0"`. -/
def Polynome2D.repr (p : Polynome2D) : String :=
  let terms := (p.coefficients.mergeSort lexLe).foldl
    (fun ts t => if t.coef ≠ 0 then ts ++ [t.str] else ts) []
  if terms.isEmpty then "0" else String.intercalate " + " terms

/-- `Polynome2D.integrer_x`: definite integral in `x` over `[a, b]` with `y`
fixed at `y_value`. `np.log` is an external real-valued function with no
exact rational counterpart, so it is modelled as an explicit function
argument `log`; every theorem below quantifies over it. Each term is
processed only under the guard `deg_x >= 0`; inside the guard the
`deg_x != -1` branch integrates the power, and the remaining branch is the
`x^(-1)` logarithmic case. -/
def Polynome2D.integrer_x (self : Polynome2D) (a b y_value : ℚ) (log : ℚ → ℚ) : ℚ :=
  self.coefficients.foldl
    (fun integral t =>
      if t.deg_x ≥ 0 then
        if t.deg_x ≠ -1 then
          integral +
            t.coef * y_value ^ t.deg_y * (b ^ (t.deg_x + 1) - a ^ (t.deg_x + 1)) /
              ((t.deg_x : ℚ) + 1)
        else
          integral + t.coef * y_value ^ t.deg_y * log (b / a)
      else
        integral) 0

/-- `Polynome2D.integrer_y`: definite integral in `y` over `[c, d]` with `x`
fixed at `x_value`, symmetric to `integrer_x`. -/
def Polynome2D.integrer_y (self : Polynome2D) (c d x_value : ℚ) (log : ℚ → ℚ) : ℚ :=
  self.coefficients.foldl
    (fun integral t =>
      if t.deg_y ≥ 0 then
        if t.deg_y ≠ -1 then
          integral +
            t.coef * x_value ^ t.deg_x * (d ^ (t.deg_y + 1) - c ^ (t.deg_y + 1)) /
              ((t.deg_y : ℚ) + 1)
        else
          integral + t.coef * x_value ^ t.deg_x * log (d / c)
      else
        integral) 0

/-- The demo coefficient list `coeffs1`: `3*x^2 - 4*y + 5*x*y`. -/
def coeffs1 : List Term :=
  [{ coef := 3, deg_x := 2, deg_y := 0 },
   { coef := -4, deg_x := 0, deg_y := 1 },
   { coef := 5, deg_x := 1, deg_y := 1 }]

/-- The demo polynomial `poly = Polynome2D(coeffs1, degree=2)`. -/
def poly : Polynome2D := { degree := 2, coefficients := coeffs1 }

/-- The numeric value a single term contributes to `eval` at `(x, y)`. -/
def termVal (x y : ℚ) (t : Term) : ℚ := t.coef * x ^ t.deg_x * y ^ t.deg_y

/-- The total coefficient a term list carries at one exponent pair. -/
def coefAt : List Term → ℤ → ℤ → ℚ
  | [], _, _ => 0
  | t :: ts, dx, dy =>
    (if t.deg_x = dx ∧ t.deg_y = dy then t.coef else 0) + coefAt ts dx dy

/-- Validation trichotomy: either every supplied term is within bounds and
`_validate_coefficients` returns the list unchanged, or some term is out of
bounds and it raises. -/
theorem validate_spec (d : ℤ) (cs : List Term) :
    (validate_coefficients d cs = .ok cs ∧ ∀ t ∈ cs, t.deg_x ≤ d ∧ t.deg_y ≤ d)
    ∨ ((∃ e, validate_coefficients d cs = .error e) ∧
        ∃ t ∈ cs, d < t.deg_x ∨ d < t.deg_y) := by
  induction cs with
  | nil => exact Or.inl ⟨rfl, by simp⟩
  | cons t ts ih =>
    by_cases h : t.deg_x > d ∨ t.deg_y > d
    · right
      refine ⟨⟨.DegreeExceeded t.deg_x t.deg_y d, ?_⟩, t, by simp, h⟩
      simp [validate_coefficients, h]
    · rcases ih with ⟨hok, hb⟩ | ⟨⟨e, he⟩, t', ht', hv⟩
      · left
        constructor
        · simp [validate_coefficients, h, hok, Except.map]
        · intro u hu
          rcases List.mem_cons.mp hu with rfl | hu
          · omega
          · exact hb u hu
      · right
        refine ⟨⟨e, ?_⟩, t', List.mem_cons_of_mem _ ht', hv⟩
        simp [validate_coefficients, h, he, Except.map]

/-- A successfully constructed polynomial stores exactly what was supplied. -/
theorem make_ok_elim (cs : List Term) (d : ℤ) (p : Polynome2D)
    (h : Polynome2D.make cs d = .ok p) : p.degree = d ∧ p.coefficients = cs := by
  rcases validate_spec d cs with ⟨hok, _⟩ | ⟨⟨e, he⟩, _⟩
  · unfold Polynome2D.make at h
    rw [hok] at h
    simp only [Except.map, Except.ok.injEq] at h
    rw [← h]
    exact ⟨rfl, rfl⟩
  · unfold Polynome2D.make at h
    rw [he] at h
    simp [Except.map] at h

/-- Construction succeeds on an in-bounds term list. -/
theorem make_ok_of_bounds (cs : List Term) (d : ℤ)
    (h : ∀ t ∈ cs, t.deg_x ≤ d ∧ t.deg_y ≤ d) :
    Polynome2D.make cs d = .ok { degree := d, coefficients := cs } := by
  rcases validate_spec d cs with ⟨hok, _⟩ | ⟨_, t, ht, hv⟩
  · unfold Polynome2D.make
    rw [hok]
    rfl
  · have := h t ht
    omega

/-- The evaluation loop as a sum, with a generalized accumulator. -/
theorem foldl_termVal (x y : ℚ) (l : List Term) (c : ℚ) :
    l.foldl (fun result t => result + t.coef * x ^ t.deg_x * y ^ t.deg_y) c
      = c + (l.map (termVal x y)).sum := by
  induction l generalizing c with
  | nil => simp
  | cons t ts ih => simp [ih, termVal]; ring

/-- `eval` computes the sum of the values of the stored terms. -/
theorem eval_eq_sum (p : Polynome2D) (x y : ℚ) :
    p.eval x y = (p.coefficients.map (termVal x y)).sum := by
  unfold Polynome2D.eval
  rw [foldl_termVal]
  ring

/-- Merging one term into an accumulator adds its value to the total. -/
theorem sum_map_addTerm (x y : ℚ) (acc : List Term) (t : Term) :
    ((addTerm acc t).map (termVal x y)).sum
      = (acc.map (termVal x y)).sum + termVal x y t := by
  induction acc with
  | nil => simp [addTerm]
  | cons u us ih =>
    by_cases h : u.deg_x = t.deg_x ∧ u.deg_y = t.deg_y
    · simp [addTerm, h, termVal, h.1, h.2]
      ring
    · simp [addTerm, h, ih]
      ring

/-- Folding a whole list of terms into an accumulator adds all their values. -/
theorem sum_map_foldl_addTerm (x y : ℚ) (l acc : List Term) :
    ((l.foldl addTerm acc).map (termVal x y)).sum
      = (acc.map (termVal x y)).sum + (l.map (termVal x y)).sum := by
  induction l generalizing acc with
  | nil => simp
  | cons t ts ih => simp [ih, sum_map_addTerm]; ring

/-- `addTerm` never creates an exponent pair: every term of the result is
within the degree bound when the accumulator and the incoming term are. -/
theorem addTerm_bounds (d : ℤ) (acc : List Term) (t : Term)
    (hacc : ∀ u ∈ acc, u.deg_x ≤ d ∧ u.deg_y ≤ d)
    (ht : t.deg_x ≤ d ∧ t.deg_y ≤ d) :
    ∀ u ∈ addTerm acc t, u.deg_x ≤ d ∧ u.deg_y ≤ d := by
  induction acc with
  | nil =>
    intro u hu
    rcases List.mem_singleton.mp hu with rfl
    exact ht
  | cons v vs ih =>
    intro u hu
    by_cases h : v.deg_x = t.deg_x ∧ v.deg_y = t.deg_y
    · rw [addTerm, if_pos h] at hu
      rcases List.mem_cons.mp hu with rfl | hu
      · exact hacc v (by simp)
      · exact hacc u (List.mem_cons_of_mem _ hu)
    · rw [addTerm, if_neg h] at hu
      rcases List.mem_cons.mp hu with rfl | hu
      · exact hacc u (by simp)
      · exact ih (fun w hw => hacc w (List.mem_cons_of_mem _ hw)) u hu

/-- `subTerm` never creates an exponent pair either. -/
theorem subTerm_bounds (d : ℤ) (acc : List Term) (t : Term)
    (hacc : ∀ u ∈ acc, u.deg_x ≤ d ∧ u.deg_y ≤ d)
    (ht : t.deg_x ≤ d ∧ t.deg_y ≤ d) :
    ∀ u ∈ subTerm acc t, u.deg_x ≤ d ∧ u.deg_y ≤ d := by
  induction acc with
  | nil =>
    intro u hu
    rcases List.mem_singleton.mp hu with rfl
    exact ht
  | cons v vs ih =>
    intro u hu
    by_cases h : v.deg_x = t.deg_x ∧ v.deg_y = t.deg_y
    · rw [subTerm, if_pos h] at hu
      rcases List.mem_cons.mp hu with rfl | hu
      · exact hacc v (by simp)
      · exact hacc u (List.mem_cons_of_mem _ hu)
    · rw [subTerm, if_neg h] at hu
      rcases List.mem_cons.mp hu with rfl | hu
      · exact hacc u (by simp)
      · exact ih (fun w hw => hacc w (List.mem_cons_of_mem _ hw)) u hu

/-- Bound preservation through the whole `__add__` merging fold. -/
theorem foldl_addTerm_bounds (d : ℤ) (l acc : List Term)
    (hacc : ∀ u ∈ acc, u.deg_x ≤ d ∧ u.deg_y ≤ d)
    (hl : ∀ t ∈ l, t.deg_x ≤ d ∧ t.deg_y ≤ d) :
    ∀ u ∈ l.foldl addTerm acc, u.deg_x ≤ d ∧ u.deg_y ≤ d := by
  induction l generalizing acc with
  | nil => exact hacc
  | cons t ts ih =>
    exact ih _ (addTerm_bounds d acc t hacc (hl t (by simp)))
      (fun w hw => hl w (List.mem_cons_of_mem _ hw))

/-- Bound preservation through the whole `__sub__` merging fold. -/
theorem foldl_subTerm_bounds (d : ℤ) (l acc : List Term)
    (hacc : ∀ u ∈ acc, u.deg_x ≤ d ∧ u.deg_y ≤ d)
    (hl : ∀ t ∈ l, t.deg_x ≤ d ∧ t.deg_y ≤ d) :
    ∀ u ∈ l.foldl subTerm acc, u.deg_x ≤ d ∧ u.deg_y ≤ d := by
  induction l generalizing acc with
  | nil => exact hacc
  | cons t ts ih =>
    exact ih _ (subTerm_bounds d acc t hacc (hl t (by simp)))
      (fun w hw => hl w (List.mem_cons_of_mem _ hw))

/-- A `mulStep` only ever inserts a term that passed the truncation guard, so
it preserves the degree bound unconditionally. -/
theorem mulStep_bounds (d : ℤ) (t1 : Term) (acc : List Term) (t2 : Term)
    (hacc : ∀ u ∈ acc, u.deg_x ≤ d ∧ u.deg_y ≤ d) :
    ∀ u ∈ mulStep d t1 acc t2, u.deg_x ≤ d ∧ u.deg_y ≤ d := by
  unfold mulStep
  by_cases h : t1.deg_x + t2.deg_x ≤ d ∧ t1.deg_y + t2.deg_y ≤ d
  · rw [if_pos h]
    exact addTerm_bounds d acc _ hacc h
  · rw [if_neg h]
    exact hacc

/-- Bound preservation through the inner cross-product fold. -/
theorem foldl_mulStep_bounds (d : ℤ) (t1 : Term) (l acc : List Term)
    (hacc : ∀ u ∈ acc, u.deg_x ≤ d ∧ u.deg_y ≤ d) :
    ∀ u ∈ l.foldl (mulStep d t1) acc, u.deg_x ≤ d ∧ u.deg_y ≤ d := by
  induction l generalizing acc with
  | nil => exact hacc
  | cons t ts ih => exact ih _ (mulStep_bounds d t1 acc t hacc)

/-- Bound preservation through the whole `__mul__` cross-product fold. -/
theorem foldl_mul_bounds (d : ℤ) (Pl Ql acc : List Term)
    (hacc : ∀ u ∈ acc, u.deg_x ≤ d ∧ u.deg_y ≤ d) :
    ∀ u ∈ Pl.foldl (fun acc t1 => Ql.foldl (mulStep d t1) acc) acc,
      u.deg_x ≤ d ∧ u.deg_y ≤ d := by
  induction Pl generalizing acc with
  | nil => exact hacc
  | cons t ts ih => exact ih _ (foldl_mulStep_bounds d t Ql acc hacc)

/-- `zpow` is additive on nonnegative integer exponents, with no nonzero-base
side condition. -/
theorem zpow_add_nonneg (x : ℚ) (a b : ℤ) (ha : 0 ≤ a) (hb : 0 ≤ b) :
    x ^ (a + b) = x ^ a * x ^ b := by
  obtain ⟨m, rfl⟩ := Int.eq_ofNat_of_zero_le ha
  obtain ⟨n, rfl⟩ := Int.eq_ofNat_of_zero_le hb
  rw [← Nat.cast_add, zpow_natCast, zpow_natCast, zpow_natCast, pow_add]

/-- The value of a product term is the product of the values, provided all
four exponents are nonnegative. -/
theorem termVal_mk_mul (x y : ℚ) (t1 t2 : Term)
    (h1 : 0 ≤ t1.deg_x) (h2 : 0 ≤ t2.deg_x) (h3 : 0 ≤ t1.deg_y) (h4 : 0 ≤ t2.deg_y) :
    termVal x y
        { coef := t1.coef * t2.coef, deg_x := t1.deg_x + t2.deg_x,
          deg_y := t1.deg_y + t2.deg_y }
      = termVal x y t1 * termVal x y t2 := by
  simp only [termVal, zpow_add_nonneg x _ _ h1 h2, zpow_add_nonneg y _ _ h3 h4]
  ring

/-- Value of the inner cross-product fold when no truncation occurs: it adds
`t1`'s value times the value of the traversed list. -/
theorem sum_map_foldl_mulStep (x y : ℚ) (D : ℤ) (t1 : Term) (l acc : List Term)
    (h1x : 0 ≤ t1.deg_x) (h1y : 0 ≤ t1.deg_y)
    (hl : ∀ t2 ∈ l, 0 ≤ t2.deg_x ∧ 0 ≤ t2.deg_y)
    (hnt : ∀ t2 ∈ l, t1.deg_x + t2.deg_x ≤ D ∧ t1.deg_y + t2.deg_y ≤ D) :
    ((l.foldl (mulStep D t1) acc).map (termVal x y)).sum
      = (acc.map (termVal x y)).sum + termVal x y t1 * (l.map (termVal x y)).sum := by
  induction l generalizing acc with
  | nil => simp
  | cons t2 ts ih =>
    have hc := hnt t2 (by simp)
    have ht2 := hl t2 (by simp)
    have hstep : mulStep D t1 acc t2
        = addTerm acc
            { coef := t1.coef * t2.coef, deg_x := t1.deg_x + t2.deg_x,
              deg_y := t1.deg_y + t2.deg_y } := by
      simp [mulStep, hc.1, hc.2]
    rw [List.foldl_cons, hstep,
      ih _ (fun t ht => hl t (List.mem_cons_of_mem _ ht))
        (fun t ht => hnt t (List.mem_cons_of_mem _ ht)),
      sum_map_addTerm, termVal_mk_mul x y t1 t2 h1x ht2.1 h1y ht2.2]
    simp
    ring

/-- Value of the whole cross-product fold when no truncation occurs. -/
theorem sum_map_foldl_mul (x y : ℚ) (D : ℤ) (Pl Ql acc : List Term)
    (hP : ∀ t ∈ Pl, 0 ≤ t.deg_x ∧ 0 ≤ t.deg_y)
    (hQ : ∀ t ∈ Ql, 0 ≤ t.deg_x ∧ 0 ≤ t.deg_y)
    (hnt : ∀ t1 ∈ Pl, ∀ t2 ∈ Ql, t1.deg_x + t2.deg_x ≤ D ∧ t1.deg_y + t2.deg_y ≤ D) :
    ((Pl.foldl (fun acc t1 => Ql.foldl (mulStep D t1) acc) acc).map (termVal x y)).sum
      = (acc.map (termVal x y)).sum
          + (Pl.map (termVal x y)).sum * (Ql.map (termVal x y)).sum := by
  induction Pl generalizing acc with
  | nil => simp
  | cons t1 ts ih =>
    have ht1 := hP t1 (by simp)
    rw [List.foldl_cons,
      ih _ (fun t ht => hP t (List.mem_cons_of_mem _ ht))
        (fun t ht1' t2 ht2 => hnt t (List.mem_cons_of_mem _ ht1') t2 ht2),
      sum_map_foldl_mulStep x y D t1 Ql acc ht1.1 ht1.2 hQ (hnt t1 (by simp))]
    simp
    ring

/-- Merging one term shifts the stored coefficient at exactly one pair. -/
theorem coefAt_addTerm (acc : List Term) (t : Term) (dx dy : ℤ) :
    coefAt (addTerm acc t) dx dy
      = coefAt acc dx dy + (if t.deg_x = dx ∧ t.deg_y = dy then t.coef else 0) := by
  induction acc with
  | nil => simp [addTerm, coefAt]
  | cons u us ih =>
    by_cases h : u.deg_x = t.deg_x ∧ u.deg_y = t.deg_y
    · rw [addTerm, if_pos h]
      obtain ⟨h1, h2⟩ := h
      simp only [coefAt, h1, h2]
      by_cases hd : t.deg_x = dx ∧ t.deg_y = dy
      · simp [hd]
        ring
      · simp [hd]
    · rw [addTerm, if_neg h]
      simp only [coefAt, ih]
      ring

/-- One cross-product step shifts the stored coefficient at exactly the pair
of summed exponents, and only when that pair passes the truncation guard. -/
theorem coefAt_mulStep (D : ℤ) (t1 : Term) (acc : List Term) (t2 : Term) (dx dy : ℤ) :
    coefAt (mulStep D t1 acc t2) dx dy
      = coefAt acc dx dy
          + (if t1.deg_x + t2.deg_x = dx ∧ t1.deg_y + t2.deg_y = dy ∧ dx ≤ D ∧ dy ≤ D
             then t1.coef * t2.coef else 0) := by
  by_cases hc : t1.deg_x + t2.deg_x ≤ D ∧ t1.deg_y + t2.deg_y ≤ D
  · have hstep : mulStep D t1 acc t2
        = addTerm acc
            { coef := t1.coef * t2.coef, deg_x := t1.deg_x + t2.deg_x,
              deg_y := t1.deg_y + t2.deg_y } := by
      simp [mulStep, hc.1, hc.2]
    rw [hstep, coefAt_addTerm]
    congr 1
    by_cases hm : t1.deg_x + t2.deg_x = dx ∧ t1.deg_y + t2.deg_y = dy
    · have hb : dx ≤ D ∧ dy ≤ D := ⟨hm.1 ▸ hc.1, hm.2 ▸ hc.2⟩
      rw [if_pos hm, if_pos ⟨hm.1, hm.2, hb.1, hb.2⟩]
    · rw [if_neg (by simpa using hm),
        if_neg (show ¬(t1.deg_x + t2.deg_x = dx ∧ t1.deg_y + t2.deg_y = dy ∧
            dx ≤ D ∧ dy ≤ D) by
          rintro ⟨h1', h2', _, _⟩
          exact hm ⟨h1', h2'⟩)]
  · have hstep : mulStep D t1 acc t2 = acc := by
      simp only [mulStep]
      rw [if_neg hc]
    rw [hstep,
      if_neg (show ¬(t1.deg_x + t2.deg_x = dx ∧ t1.deg_y + t2.deg_y = dy ∧
          dx ≤ D ∧ dy ≤ D) by
        rintro ⟨h1', h2', h3', h4'⟩
        exact hc ⟨h1' ▸ h3', h2' ▸ h4'⟩)]
    ring

/-- Stored coefficient after the inner cross-product fold. -/
theorem coefAt_foldl_mulStep (D : ℤ) (t1 : Term) (l acc : List Term) (dx dy : ℤ) :
    coefAt (l.foldl (mulStep D t1) acc) dx dy
      = coefAt acc dx dy
          + (l.map fun t2 =>
              if t1.deg_x + t2.deg_x = dx ∧ t1.deg_y + t2.deg_y = dy ∧ dx ≤ D ∧ dy ≤ D
              then t1.coef * t2.coef else 0).sum := by
  induction l generalizing acc with
  | nil => simp
  | cons t2 ts ih =>
    rw [List.foldl_cons, ih, coefAt_mulStep]
    simp
    ring

/-- Stored coefficient after the whole cross-product fold. -/
theorem coefAt_foldl_mul (D : ℤ) (Pl Ql acc : List Term) (dx dy : ℤ) :
    coefAt (Pl.foldl (fun acc t1 => Ql.foldl (mulStep D t1) acc) acc) dx dy
      = coefAt acc dx dy
          + (Pl.map fun t1 =>
              (Ql.map fun t2 =>
                if t1.deg_x + t2.deg_x = dx ∧ t1.deg_y + t2.deg_y = dy ∧ dx ≤ D ∧ dy ≤ D
                then t1.coef * t2.coef else 0).sum).sum := by
  induction Pl generalizing acc with
  | nil => simp
  | cons t1 ts ih =>
    rw [List.foldl_cons, ih, coefAt_foldl_mulStep]
    simp
    ring

/-- The `integrer_x` loop with a generalized accumulator: only terms passing
the `deg_x >= 0` guard contribute, each through the power-rule formula; the
logarithm branch is never taken because `deg_x >= 0` excludes `deg_x = -1`. -/
theorem integrerX_foldl (a b yv : ℚ) (log : ℚ → ℚ) (l : List Term) (init : ℚ) :
    l.foldl
        (fun integral t =>
          if t.deg_x ≥ 0 then
            if t.deg_x ≠ -1 then
              integral +
                t.coef * yv ^ t.deg_y * (b ^ (t.deg_x + 1) - a ^ (t.deg_x + 1)) /
                  ((t.deg_x : ℚ) + 1)
            else
              integral + t.coef * yv ^ t.deg_y * log (b / a)
          else
            integral) init
      = init + ((l.filter fun t => decide (0 ≤ t.deg_x)).map fun t =>
          t.coef * yv ^ t.deg_y * (b ^ (t.deg_x + 1) - a ^ (t.deg_x + 1)) /
            ((t.deg_x : ℚ) + 1)).sum := by
  induction l generalizing init with
  | nil => simp
  | cons t ts ih =>
    simp only [List.foldl_cons]
    by_cases h : t.deg_x ≥ 0
    · have hne : t.deg_x ≠ -1 := by omega
      rw [if_pos h, if_pos hne, ih, List.filter_cons_of_pos (by simpa using h)]
      simp
      ring
    · rw [if_neg h, ih, List.filter_cons_of_neg (by simpa using h)]

/-- The `integrer_y` loop with a generalized accumulator, symmetric to
`integrerX_foldl`. -/
theorem integrerY_foldl (c d xv : ℚ) (log : ℚ → ℚ) (l : List Term) (init : ℚ) :
    l.foldl
        (fun integral t =>
          if t.deg_y ≥ 0 then
            if t.deg_y ≠ -1 then
              integral +
                t.coef * xv ^ t.deg_x * (d ^ (t.deg_y + 1) - c ^ (t.deg_y + 1)) /
                  ((t.deg_y : ℚ) + 1)
            else
              integral + t.coef * xv ^ t.deg_x * log (d / c)
          else
            integral) init
      = init + ((l.filter fun t => decide (0 ≤ t.deg_y)).map fun t =>
          t.coef * xv ^ t.deg_x * (d ^ (t.deg_y + 1) - c ^ (t.deg_y + 1)) /
            ((t.deg_y : ℚ) + 1)).sum := by
  induction l generalizing init with
  | nil => simp
  | cons t ts ih =>
    simp only [List.foldl_cons]
    by_cases h : t.deg_y ≥ 0
    · have hne : t.deg_y ≠ -1 := by omega
      rw [if_pos h, if_pos hne, ih, List.filter_cons_of_pos (by simpa using h)]
      simp
      ring
    · rw [if_neg h, ih, List.filter_cons_of_neg (by simpa using h)]

/-- The sorting key of `__repr__` as a proposition: lexicographic order on
the exponent pair. -/
def lexPr (t u : Term) : Prop :=
  t.deg_x < u.deg_x ∨ (t.deg_x = u.deg_x ∧ t.deg_y ≤ u.deg_y)

theorem lexLe_iff (t u : Term) : lexLe t u = true ↔ lexPr t u := by
  simp [lexLe, lexPr]

theorem lexLe_trans (t u v : Term) (h1 : lexLe t u) (h2 : lexLe u v) : lexLe t v := by
  simp only [lexLe, Bool.or_eq_true, Bool.and_eq_true, decide_eq_true_eq] at *
  omega

theorem lexLe_total (t u : Term) : lexLe t u || lexLe u t := by
  simp only [lexLe, Bool.or_eq_true, Bool.and_eq_true, decide_eq_true_eq]
  omega

/-- The string-building loop of `__repr__` with a generalized accumulator:
it appends exactly the rendered strings of the nonzero-coefficient terms. -/
theorem foldl_append_filter (l : List Term) (init : List String) :
    l.foldl (fun ts t => if t.coef ≠ 0 then ts ++ [t.str] else ts) init
      = init ++ (l.filter fun t => decide (t.coef ≠ 0)).map Term.str := by
  induction l generalizing init with
  | nil => simp
  | cons t ts ih =>
    simp only [List.foldl_cons]
    by_cases h : t.coef ≠ 0
    · rw [if_pos h, ih, List.filter_cons_of_pos (by simpa using h)]
      simp
    · rw [if_neg h, ih, List.filter_cons_of_neg (by simpa using h)]

/-- Claim C1: for all polynomials `P`, `Q` of equal `max_degree` (whose terms
respect the degree bound, as construction guarantees), addition succeeds and
the sum polynomial evaluates to the sum of the evaluations at every input
pair, with no assumption on duplicate exponent pairs or zero coefficients. -/
theorem claim_C1_additivity (P Q : Polynome2D) (hd : P.degree = Q.degree)
    (hP : ∀ t ∈ P.coefficients, t.deg_x ≤ P.degree ∧ t.deg_y ≤ P.degree)
    (hQ : ∀ t ∈ Q.coefficients, t.deg_x ≤ Q.degree ∧ t.deg_y ≤ Q.degree) :
    ∃ R, P.add Q = .ok R ∧ ∀ x y : ℚ, R.eval x y = P.eval x y + Q.eval x y := by
  have hQ' : ∀ t ∈ Q.coefficients, t.deg_x ≤ P.degree ∧ t.deg_y ≤ P.degree := by
    rw [hd]
    exact hQ
  refine ⟨{ degree := P.degree,
            coefficients := Q.coefficients.foldl addTerm P.coefficients }, ?_, ?_⟩
  · unfold Polynome2D.add
    rw [if_neg (fun hx => hx hd)]
    exact make_ok_of_bounds _ _ (foldl_addTerm_bounds P.degree _ _ hP hQ')
  · intro x y
    rw [eval_eq_sum, eval_eq_sum, eval_eq_sum]
    exact sum_map_foldl_addTerm x y Q.coefficients P.coefficients

theorem claim_C1_witness :
    ∃ R, poly.add poly = .ok R ∧ R.eval 1 1 = poly.eval 1 1 + poly.eval 1 1 := by
  obtain ⟨R, h1, h2⟩ := claim_C1_additivity poly poly rfl (by decide) (by decide)
  exact ⟨R, h1, h2 1 1⟩

/-- Claim C2: for all polynomials `P`, `Q` of equal `max_degree` with
nonnegative exponents (the spec's data model for terms) such that no
cross-product term exceeds `max_degree` on either axis (no truncation),
multiplication succeeds and the product polynomial evaluates to the product
of the evaluations at every input pair. -/
theorem claim_C2_multiplicativity (P Q : Polynome2D) (hd : P.degree = Q.degree)
    (hP : ∀ t ∈ P.coefficients, 0 ≤ t.deg_x ∧ 0 ≤ t.deg_y)
    (hQ : ∀ t ∈ Q.coefficients, 0 ≤ t.deg_x ∧ 0 ≤ t.deg_y)
    (hnt : ∀ t1 ∈ P.coefficients, ∀ t2 ∈ Q.coefficients,
      t1.deg_x + t2.deg_x ≤ P.degree ∧ t1.deg_y + t2.deg_y ≤ P.degree) :
    ∃ R, P.mul Q = .ok R ∧ ∀ x y : ℚ, R.eval x y = P.eval x y * Q.eval x y := by
  have hbound : ∀ u ∈ P.coefficients.foldl
      (fun acc t1 => Q.coefficients.foldl (mulStep P.degree t1) acc) [],
      u.deg_x ≤ P.degree ∧ u.deg_y ≤ P.degree :=
    foldl_mul_bounds P.degree P.coefficients Q.coefficients [] (by simp)
  refine ⟨{ degree := P.degree,
            coefficients := P.coefficients.foldl
              (fun acc t1 => Q.coefficients.foldl (mulStep P.degree t1) acc) [] },
          ?_, ?_⟩
  · unfold Polynome2D.mul
    rw [if_neg (fun hx => hx hd)]
    exact make_ok_of_bounds _ _ hbound
  · intro x y
    rw [eval_eq_sum, eval_eq_sum, eval_eq_sum]
    have := sum_map_foldl_mul x y P.degree P.coefficients Q.coefficients [] hP hQ hnt
    simpa using this

theorem claim_C2_witness :
    ∃ R, Polynome2D.mul { degree := 2, coefficients := [{ coef := 2, deg_x := 1, deg_y := 0 }] }
        { degree := 2, coefficients := [{ coef := 3, deg_x := 0, deg_y := 1 }] } = .ok R
      ∧ R.eval 2 3
          = Polynome2D.eval { degree := 2, coefficients := [{ coef := 2, deg_x := 1, deg_y := 0 }] } 2 3
            * Polynome2D.eval { degree := 2, coefficients := [{ coef := 3, deg_x := 0, deg_y := 1 }] } 2 3 := by
  obtain ⟨R, h1, h2⟩ := claim_C2_multiplicativity
    { degree := 2, coefficients := [{ coef := 2, deg_x := 1, deg_y := 0 }] }
    { degree := 2, coefficients := [{ coef := 3, deg_x := 0, deg_y := 1 }] }
    rfl (by decide) (by decide) (by decide)
  exact ⟨R, h1, h2 2 3⟩

/-- Claim C3: construction fails (with `DegreeExceeded`) exactly when some
supplied term exceeds `max_degree` on either axis, strictly; otherwise the
polynomial stores the degree and the term sequence unchanged, with no other
validation, merging, sorting, or pruning. -/
theorem claim_C3_construction (cs : List Term) (d : ℤ) :
    ((∃ e, Polynome2D.make cs d = .error e) ↔ ∃ t ∈ cs, d < t.deg_x ∨ d < t.deg_y)
    ∧ ∀ p, Polynome2D.make cs d = .ok p → p.degree = d ∧ p.coefficients = cs := by
  constructor
  · rcases validate_spec d cs with ⟨hok, hb⟩ | ⟨⟨e, he⟩, hex⟩
    · constructor
      · rintro ⟨e, he⟩
        unfold Polynome2D.make at he
        rw [hok] at he
        simp [Except.map] at he
      · rintro ⟨t, ht, hv⟩
        have := hb t ht
        omega
    · constructor
      · intro _
        exact hex
      · intro _
        refine ⟨e, ?_⟩
        unfold Polynome2D.make
        rw [he]
        rfl
  · exact fun p hp => make_ok_elim cs d p hp

theorem claim_C3_witness :
    poly.degree = 2 ∧ poly.coefficients = coeffs1 :=
  (claim_C3_construction coeffs1 2).2 poly (make_ok_of_bounds coeffs1 2 (by decide))

/-- Claim C4: for equal degrees, multiplication always succeeds; every
exponent pair present in the result is within bounds, and the stored
coefficient at each within-bounds pair is the full cross-product sum of
`coef1 * coef2` over the pairs of operand terms whose exponents sum to it,
while every out-of-bounds pair carries nothing (dropped, no error). -/
theorem claim_C4_mul_truncation (P Q : Polynome2D) (h : P.degree = Q.degree) :
    ∃ R, P.mul Q = .ok R ∧ R.degree = P.degree
      ∧ (∀ t ∈ R.coefficients, t.deg_x ≤ P.degree ∧ t.deg_y ≤ P.degree)
      ∧ ∀ dx dy : ℤ,
          coefAt R.coefficients dx dy =
            if dx ≤ P.degree ∧ dy ≤ P.degree then
              (P.coefficients.map fun t1 =>
                (Q.coefficients.map fun t2 =>
                  if t1.deg_x + t2.deg_x = dx ∧ t1.deg_y + t2.deg_y = dy
                  then t1.coef * t2.coef else 0).sum).sum
            else 0 := by
  have hbound : ∀ u ∈ P.coefficients.foldl
      (fun acc t1 => Q.coefficients.foldl (mulStep P.degree t1) acc) [],
      u.deg_x ≤ P.degree ∧ u.deg_y ≤ P.degree :=
    foldl_mul_bounds P.degree P.coefficients Q.coefficients [] (by simp)
  refine ⟨{ degree := P.degree,
            coefficients := P.coefficients.foldl
              (fun acc t1 => Q.coefficients.foldl (mulStep P.degree t1) acc) [] },
          ?_, rfl, hbound, ?_⟩
  · unfold Polynome2D.mul
    rw [if_neg (fun hx => hx h)]
    exact make_ok_of_bounds _ _ hbound
  · intro dx dy
    have hfold := coefAt_foldl_mul P.degree P.coefficients Q.coefficients [] dx dy
    by_cases hb : dx ≤ P.degree ∧ dy ≤ P.degree
    · rw [if_pos hb]
      have h1 := hb.1
      have h2 := hb.2
      simp only [coefAt, zero_add] at hfold
      rw [hfold]
      simp [h1, h2]
    · rw [if_neg hb]
      have hfalse : ∀ t1 t2 : Term,
          ¬(t1.deg_x + t2.deg_x = dx ∧ t1.deg_y + t2.deg_y = dy ∧
              dx ≤ P.degree ∧ dy ≤ P.degree) := by
        rintro t1 t2 ⟨_, _, h3, h4⟩
        exact hb ⟨h3, h4⟩
      simp only [coefAt, zero_add] at hfold
      rw [hfold]
      simp [hfalse]

theorem claim_C4_witness :
    ∃ R, Polynome2D.mul { degree := 2, coefficients := [{ coef := 1, deg_x := 2, deg_y := 0 }] }
        { degree := 2, coefficients := [{ coef := 1, deg_x := 2, deg_y := 0 }] } = .ok R
      ∧ coefAt R.coefficients 4 0 = 0 := by
  obtain ⟨R, h1, _, _, h4⟩ := claim_C4_mul_truncation
    { degree := 2, coefficients := [{ coef := 1, deg_x := 2, deg_y := 0 }] }
    { degree := 2, coefficients := [{ coef := 1, deg_x := 2, deg_y := 0 }] } rfl
  refine ⟨R, h1, ?_⟩
  rw [h4 4 0]
  simp

/-- Claim C5 (code behavior at the claimed input): a term with integration
axis exponent `-1` is accepted by construction, yet `integrer_x` skips it
entirely — the outer `deg_x >= 0` guard makes the `deg_x == -1` logarithm
branch unreachable, so the integral contains no `log` contribution at all,
for any bounds, fixed value and any model of `np.log`. -/
theorem claim_C5_negative_exponent_dropped (a b yv : ℚ) (log : ℚ → ℚ) :
    Polynome2D.make [{ coef := 1, deg_x := -1, deg_y := 0 }] 2
        = .ok { degree := 2, coefficients := [{ coef := 1, deg_x := -1, deg_y := 0 }] }
    ∧ Polynome2D.integrer_x
        { degree := 2, coefficients := [{ coef := 1, deg_x := -1, deg_y := 0 }] }
        a b yv log = 0 := by
  constructor
  · simp [Polynome2D.make, validate_coefficients, Except.map]
  · simp [Polynome2D.integrer_x]

theorem claim_C5_witness :
    Polynome2D.integrer_x
        { degree := 2, coefficients := [{ coef := 1, deg_x := -1, deg_y := 0 }] }
        1 2 0 (fun q => q) = 0 :=
  (claim_C5_negative_exponent_dropped 1 2 0 (fun q => q)).2

/-- Claim C6 counterexample: on the demo polynomial `3x^2 - 4y + 5xy`,
`integrer_y 0 1` with `x_value = 1` computes `7/2` (the `3x^2` term
contributes `3`), not the claimed `-3/2`. -/
theorem claim_C6_counterexample :
    poly.integrer_y 0 1 1 (fun q => q) = 7 / 2 ∧ ((7 : ℚ) / 2) ≠ -(3 / 2) := by
  constructor
  · simp [Polynome2D.integrer_y, poly, coeffs1]
    norm_num
  · norm_num

/-- Claim C6 as amended: the demo polynomial constructs successfully,
`integrer_x 1 2` with `y_value = 0` returns exactly `7`, and
`integrer_y 0 1` with `x_value = 1` returns exactly `7/2`, for any model of
`np.log`. -/
theorem claim_C6_demo_integrals (log : ℚ → ℚ) :
    Polynome2D.make coeffs1 2 = .ok poly
    ∧ poly.integrer_x 1 2 0 log = 7
    ∧ poly.integrer_y 0 1 1 log = 7 / 2 := by
  refine ⟨?_, ?_, ?_⟩
  · simp [Polynome2D.make, validate_coefficients, coeffs1, poly, Except.map]
  · simp [Polynome2D.integrer_x, poly, coeffs1]
    norm_num
  · simp [Polynome2D.integrer_y, poly, coeffs1]
    norm_num

theorem claim_C6_witness :
    poly.integrer_x 1 2 0 (fun q => q) = 7 :=
  (claim_C6_demo_integrals (fun q => q)).2.1

/-- Claim C7: for operands whose stored terms respect their own degree bound
(as construction guarantees), each of add, sub and mul fails exactly when the
two `max_degree` values differ, and that failure is `DegreeMismatch` with no
result produced; with equal degrees none of the three fails. -/
theorem claim_C7_degree_mismatch (P Q : Polynome2D)
    (hP : ∀ t ∈ P.coefficients, t.deg_x ≤ P.degree ∧ t.deg_y ≤ P.degree)
    (hQ : ∀ t ∈ Q.coefficients, t.deg_x ≤ Q.degree ∧ t.deg_y ≤ Q.degree) :
    ((∃ e, P.add Q = .error e) ↔ P.degree ≠ Q.degree)
    ∧ ((∃ e, P.sub Q = .error e) ↔ P.degree ≠ Q.degree)
    ∧ ((∃ e, P.mul Q = .error e) ↔ P.degree ≠ Q.degree)
    ∧ (P.degree ≠ Q.degree →
        P.add Q = .error .DegreeMismatch ∧ P.sub Q = .error .DegreeMismatch
          ∧ P.mul Q = .error .DegreeMismatch) := by
  by_cases hd : P.degree = Q.degree
  · have hQ' : ∀ t ∈ Q.coefficients, t.deg_x ≤ P.degree ∧ t.deg_y ≤ P.degree := by
      rw [hd]
      exact hQ
    have hadd : P.add Q = .ok
        { degree := P.degree,
          coefficients := Q.coefficients.foldl addTerm P.coefficients } := by
      unfold Polynome2D.add
      rw [if_neg (fun hx => hx hd)]
      exact make_ok_of_bounds _ _ (foldl_addTerm_bounds P.degree _ _ hP hQ')
    have hsub : P.sub Q = .ok
        { degree := P.degree,
          coefficients := Q.coefficients.foldl subTerm P.coefficients } := by
      unfold Polynome2D.sub
      rw [if_neg (fun hx => hx hd)]
      exact make_ok_of_bounds _ _ (foldl_subTerm_bounds P.degree _ _ hP hQ')
    have hmul : P.mul Q = .ok
        { degree := P.degree,
          coefficients := P.coefficients.foldl
            (fun acc t1 => Q.coefficients.foldl (mulStep P.degree t1) acc) [] } := by
      unfold Polynome2D.mul
      rw [if_neg (fun hx => hx hd)]
      exact make_ok_of_bounds _ _
        (foldl_mul_bounds P.degree P.coefficients Q.coefficients [] (by simp))
    refine ⟨⟨fun hx => ?_, fun hx => absurd hd hx⟩,
      ⟨fun hx => ?_, fun hx => absurd hd hx⟩,
      ⟨fun hx => ?_, fun hx => absurd hd hx⟩,
      fun hx => absurd hd hx⟩
    · obtain ⟨e, he⟩ := hx
      rw [hadd] at he
      exact Except.noConfusion he
    · obtain ⟨e, he⟩ := hx
      rw [hsub] at he
      exact Except.noConfusion he
    · obtain ⟨e, he⟩ := hx
      rw [hmul] at he
      exact Except.noConfusion he
  · have hadd : P.add Q = .error .DegreeMismatch := by
      unfold Polynome2D.add
      rw [if_pos hd]
    have hsub : P.sub Q = .error .DegreeMismatch := by
      unfold Polynome2D.sub
      rw [if_pos hd]
    have hmul : P.mul Q = .error .DegreeMismatch := by
      unfold Polynome2D.mul
      rw [if_pos hd]
    exact ⟨⟨fun _ => hd, fun _ => ⟨_, hadd⟩⟩, ⟨fun _ => hd, fun _ => ⟨_, hsub⟩⟩,
      ⟨fun _ => hd, fun _ => ⟨_, hmul⟩⟩, fun _ => ⟨hadd, hsub, hmul⟩⟩

theorem claim_C7_witness :
    Polynome2D.add poly { degree := 3, coefficients := [] } = .error .DegreeMismatch := by
  have h := claim_C7_degree_mismatch poly { degree := 3, coefficients := [] }
    (by decide) (by decide)
  exact (h.2.2.2 (by decide)).1

/-- Claim C8: `__repr__` renders exactly the nonzero-coefficient terms (as a
permutation-preserving filter), in ascending lexicographic order of the
exponent pair, each through the term format string, joined by `" + "`, and
falls back to the literal `"0"` exactly when the term list is empty or every
stored coefficient is zero. -/
theorem claim_C8_repr (p : Polynome2D) :
    ∃ l : List Term,
      l.Perm (p.coefficients.filter fun t => decide (t.coef ≠ 0))
      ∧ List.Pairwise lexPr l
      ∧ (l = [] ↔ ∀ t ∈ p.coefficients, t.coef = 0)
      ∧ p.repr = if l = [] then "0" else String.intercalate " + " (l.map Term.str) := by
  refine ⟨(p.coefficients.mergeSort lexLe).filter fun t => decide (t.coef ≠ 0),
    ?_, ?_, ?_, ?_⟩
  · exact (List.mergeSort_perm p.coefficients lexLe).filter _
  · have hs := @List.sorted_mergeSort Term lexLe
      (fun a b c => lexLe_trans a b c) (fun a b => lexLe_total a b) p.coefficients
    exact (hs.filter _).imp fun h => (lexLe_iff _ _).mp h
  · rw [List.filter_eq_nil_iff]
    constructor
    · intro h t ht
      have := h t (((List.mergeSort_perm p.coefficients lexLe).mem_iff).mpr ht)
      simpa using this
    · intro h t ht
      have := h t (((List.mergeSort_perm p.coefficients lexLe).mem_iff).mp ht)
      simpa using this
  · unfold Polynome2D.repr
    rw [foldl_append_filter]
    by_cases hl :
        (p.coefficients.mergeSort lexLe).filter (fun t => decide (t.coef ≠ 0)) = []
    · rw [hl]
      simp
    · rw [if_neg hl]
      have hne : (((p.coefficients.mergeSort lexLe).filter
          fun t => decide (t.coef ≠ 0)).map Term.str) ≠ [] := by
        simpa using hl
      simp only [List.nil_append]
      rw [if_neg (by simpa [List.isEmpty_iff] using hne)]

theorem claim_C8_witness :
    Polynome2D.repr { degree := 0, coefficients := [] } = "0" := by
  obtain ⟨l, _, _, hempty, hrepr⟩ := claim_C8_repr { degree := 0, coefficients := [] }
  rw [hrepr, if_pos (hempty.mpr (by simp))]

/-- Claim C9: `integrer_x` returns exactly the sum, over the terms with
nonnegative `deg_x`, of the power-rule formula
`coef * y_value^deg_y * (b^(deg_x+1) - a^(deg_x+1)) / (deg_x+1)`; terms with
negative `deg_x` contribute nothing and cause no error, for any bounds
(including a zero lower bound) and any model of `np.log`; symmetrically for
`integrer_y`. -/
theorem claim_C9_integration_sum (p : Polynome2D) (a b c d yv xv : ℚ) (log : ℚ → ℚ) :
    p.integrer_x a b yv log
        = ((p.coefficients.filter fun t => decide (0 ≤ t.deg_x)).map fun t =>
            t.coef * yv ^ t.deg_y * (b ^ (t.deg_x + 1) - a ^ (t.deg_x + 1)) /
              ((t.deg_x : ℚ) + 1)).sum
    ∧ p.integrer_y c d xv log
        = ((p.coefficients.filter fun t => decide (0 ≤ t.deg_y)).map fun t =>
            t.coef * xv ^ t.deg_x * (d ^ (t.deg_y + 1) - c ^ (t.deg_y + 1)) /
              ((t.deg_y : ℚ) + 1)).sum := by
  constructor
  · unfold Polynome2D.integrer_x
    rw [integrerX_foldl]
    ring
  · unfold Polynome2D.integrer_y
    rw [integrerY_foldl]
    ring

theorem claim_C9_witness :
    poly.integrer_x 1 2 0 (fun q => q)
      = ((poly.coefficients.filter fun t => decide (0 ≤ t.deg_x)).map fun t =>
          t.coef * (0 : ℚ) ^ t.deg_y * ((2 : ℚ) ^ (t.deg_x + 1) - (1 : ℚ) ^ (t.deg_x + 1)) /
            ((t.deg_x : ℚ) + 1)).sum :=
  (claim_C9_integration_sum poly 1 2 0 1 0 1 (fun q => q)).1

/-- Claim C10: `integrer_x` and `integrer_y` are total: their value never
depends on the external logarithm (the `== -1` branch is unreachable under
the `>= 0` guard), and whenever the power-rule division is reached the
divisor `deg + 1` is nonzero. -/
theorem claim_C10_integration_total (p : Polynome2D) (a b c d yv xv : ℚ)
    (log1 log2 : ℚ → ℚ) :
    p.integrer_x a b yv log1 = p.integrer_x a b yv log2
    ∧ p.integrer_y c d xv log1 = p.integrer_y c d xv log2
    ∧ (∀ t ∈ p.coefficients, 0 ≤ t.deg_x → ((t.deg_x : ℚ) + 1) ≠ 0)
    ∧ (∀ t ∈ p.coefficients, 0 ≤ t.deg_y → ((t.deg_y : ℚ) + 1) ≠ 0) := by
  refine ⟨?_, ?_, ?_, ?_⟩
  · unfold Polynome2D.integrer_x
    rw [integrerX_foldl, integrerX_foldl]
  · unfold Polynome2D.integrer_y
    rw [integrerY_foldl, integrerY_foldl]
  · intro t _ h
    have hc : (0 : ℚ) ≤ (t.deg_x : ℚ) := by exact_mod_cast h
    linarith
  · intro t _ h
    have hc : (0 : ℚ) ≤ (t.deg_y : ℚ) := by exact_mod_cast h
    linarith

theorem claim_C10_witness :
    poly.integrer_x 1 2 0 (fun q => q) = poly.integrer_x 1 2 0 (fun _ => 37) :=
  (claim_C10_integration_total poly 1 2 0 1 0 1 (fun q => q) (fun _ => 37)).1
